import Mathlib

set_option maxRecDepth 1000000

/-!
Verification of the proof-of-work difficulty logic of `src/pow.cpp`
(classic periodic retarget, LWMA retarget, and the proof-of-work check).

Machine integers are embedded as `Nat`/`Int` with explicit reductions:
256-bit unsigned values are reduced `% 2^256`, and the C++ `int`
accumulator of the LWMA loop is reduced into two's-complement range via
`wrap32`.  The compact-target codec and the 256-bit big-integer
primitive live in `arith_uint256.h`, which is not part of the sources
under verification; following the specification they are modelled as the
standard 3-byte-mantissa/exponent compact encoding and as arithmetic on
values reduced modulo `2^256`.
-/

/-- Modelled from the spec: bit length of a 256-bit magnitude
(`arith_uint256::bits()`), written with structural fuel so that it
reduces in the kernel; `bitLenAux f x` is the bit length of `x` for
`x < 2^f`. -/
def bitLenAux : Nat → Nat → Nat
  | 0, _ => 0
  | f + 1, x => if x = 0 then 0 else bitLenAux f (x / 2) + 1

/-- Modelled from the spec: bit length with enough fuel for any value
that fits in 256 bits (all values handled here are reduced `% 2^256`). -/
def bitLen (x : Nat) : Nat := bitLenAux 300 x

/-- Modelled from the spec: the decoded 256-bit magnitude of a compact
target (`arith_uint256::SetCompact`): 3 mantissa bytes and one exponent
byte; the mantissa is the low 23 bits, the shift is by whole bytes, and
the result is reduced modulo `2^256`. -/
def setCompactValue (nCompact : Nat) : Nat :=
  let nSize := nCompact / 2 ^ 24
  let nWord := nCompact % 2 ^ 23
  if nSize ≤ 3 then nWord / 2 ^ (8 * (3 - nSize))
  else (nWord * 2 ^ (8 * (nSize - 3))) % 2 ^ 256

/-- Modelled from the spec: the negative flag reported by compact
decoding — mantissa nonzero and sign bit (bit 23) set. -/
def setCompactNegative (nCompact : Nat) : Bool :=
  decide (nCompact % 2 ^ 23 ≠ 0 ∧ (nCompact / 2 ^ 23) % 2 = 1)

/-- Modelled from the spec: the overflow flag reported by compact
decoding — mantissa nonzero and the exponent pushes a significant
mantissa byte above the 256-bit range. -/
def setCompactOverflow (nCompact : Nat) : Bool :=
  let nSize := nCompact / 2 ^ 24
  let nWord := nCompact % 2 ^ 23
  decide (nWord ≠ 0 ∧
    (nSize > 34 ∨ (nWord > 0xff ∧ nSize > 33) ∨ (nWord > 0xffff ∧ nSize > 32)))

/-- Modelled from the spec: compact encoding of a 256-bit magnitude
(`arith_uint256::GetCompact` with `fNegative = false`): size in bytes,
three mantissa bytes, and a byte shift if the top mantissa bit would
collide with the sign bit. -/
def GetCompact (v : Nat) : Nat :=
  let nSize := (bitLen v + 7) / 8
  let nCompact :=
    if nSize ≤ 3 then (v % 2 ^ 64) * 2 ^ (8 * (3 - nSize))
    else (v / 2 ^ (8 * (nSize - 3))) % 2 ^ 64
  if (nCompact / 2 ^ 23) % 2 = 1 then (nCompact / 2 ^ 8) + (nSize + 1) * 2 ^ 24
  else nCompact + nSize * 2 ^ 24

/-- Block metadata as read from `CBlockIndex`: height, 32-bit timestamp
`nTime`, and the compact target `nBits` the block was mined at. -/
structure BlockIndex where
  nHeight : Nat
  nTime : Nat
  nBits : Nat
  deriving Repr, DecidableEq

/-- `CBlockIndex::GetBlockTime`: the 32-bit timestamp widened to a
signed 64-bit value. -/
def BlockIndex.GetBlockTime (b : BlockIndex) : Int := (b.nTime : Int)

/-- Consensus parameters consumed by `pow.cpp`. The two per-height
functions (`DifficultyAdjustmentIntervalAtHeight`,
`getPowTargetTimespan`) are modelled from the spec, which describes
them as height-indexed configuration from the chain parameters. -/
structure ConsensusParams where
  powLimit : Nat
  nPowTargetSpacing : Int
  fPowAllowMinDifficultyBlocks : Bool
  fPowNoRetargeting : Bool
  zawyLWMAHeight : Int
  DifficultyAdjustmentIntervalAtHeight : Nat → Nat
  getPowTargetTimespan : Nat → Int

/-- A chain is a nonempty-by-use list of block metadata, most recent
block first; the tail of the list is the `pprev` chain of the head. -/
abbrev Chain := List BlockIndex

/-- `CBlockIndex::GetAncestor` on a chain whose head is the queried
block: `none` above the head's height, otherwise the entry found by
stepping back `height` differences (the `pskip`/`pprev` walk of the
source, which lands on the ancestor at the requested height for a
structurally valid chain). -/
def getAncestor (c : Chain) (h : Nat) : Option BlockIndex :=
  match c with
  | [] => none
  | b :: _ => if b.nHeight < h then none else c.get? (b.nHeight - h)

/-- The backward walk of the min-difficulty branch of
`PreLWMAGetNextWorkRequired`:
`while (pindex->pprev && pindex->nHeight % diffInterval != 0 && pindex->nBits == nProofOfWorkLimit) pindex = pindex->pprev; return pindex->nBits;`. -/
def minDiffWalk (b : BlockIndex) (rest : Chain) (diffInterval powLimitCompact : Nat) : Nat :=
  match rest with
  | [] => b.nBits
  | p :: rest' =>
    if b.nHeight % diffInterval ≠ 0 ∧ b.nBits = powLimitCompact then
      minDiffWalk p rest' diffInterval powLimitCompact
    else b.nBits

/-- `CheckProofOfWork(hash, nBits, params)` from `src/pow.cpp`: decode
the compact target, reject on negative/zero/overflow/above-`powLimit`,
then compare the hash against the target. Total on every input. -/
def CheckProofOfWork (hash nBits : Nat) (params : ConsensusParams) : Bool :=
  if setCompactNegative nBits = true ∨ setCompactValue nBits = 0 ∨
      setCompactOverflow nBits = true ∨ setCompactValue nBits > params.powLimit then
    false
  else if hash > setCompactValue nBits then false
  else true

/-- The timespan clamp of `CalculateNextWorkRequired`: raise to
`powTargetTimespan/4`, lower to `powTargetTimespan*4` (C++ signed
division truncates toward zero, i.e. `Int.tdiv`). -/
def clampTimespan (nActualTimespan powTargetTimespan : Int) : Int :=
  let a := if nActualTimespan < Int.tdiv powTargetTimespan 4 then Int.tdiv powTargetTimespan 4
           else nActualTimespan
  if a > powTargetTimespan * 4 then powTargetTimespan * 4 else a

/-- The 256-bit value computed by `CalculateNextWorkRequired` just
before re-encoding: decode `pindexLast->nBits`, multiply by the clamped
timespan, divide by the target timespan (256-bit arithmetic, reduced
modulo `2^256`; per the spec's `BigUint256Ops` the scalars feed the
unsigned arithmetic, so they are taken nonnegative via `Int.toNat` —
for a positive `targetTimespan` the clamped timespan is positive
anyway), then clamp to `powLimit`. -/
def CalculateNextWorkRequired_bnNew (pindexLast : BlockIndex) (nFirstBlockTime : Int)
    (params : ConsensusParams) : Nat :=
  let powTargetTimespan := params.getPowTargetTimespan pindexLast.nHeight
  let nActualTimespan := clampTimespan (pindexLast.GetBlockTime - nFirstBlockTime) powTargetTimespan
  let bnNew := (setCompactValue pindexLast.nBits * nActualTimespan.toNat) % 2 ^ 256
  let bnNew := bnNew / powTargetTimespan.toNat
  if bnNew > params.powLimit then params.powLimit else bnNew

/-- `CalculateNextWorkRequired(pindexLast, nFirstBlockTime, params)`
from `src/pow.cpp`. -/
def CalculateNextWorkRequired (pindexLast : BlockIndex) (nFirstBlockTime : Int)
    (params : ConsensusParams) : Nat :=
  if params.fPowNoRetargeting = true then pindexLast.nBits
  else GetCompact (CalculateNextWorkRequired_bnNew pindexLast nFirstBlockTime params)

/-- `PreLWMAGetNextWorkRequired(pindexLast, pblock, params)` from
`src/pow.cpp`; `blockTime` is `pblock->GetBlockTime()`. `none` models
the assertion failures / null dereferences (empty chain, negative
first-interval height, missing ancestor). -/
def PreLWMAGetNextWorkRequired (c : Chain) (blockTime : Int)
    (params : ConsensusParams) : Option Nat :=
  match c with
  | [] => none
  | pindexLast :: rest =>
    let nProofOfWorkLimit := GetCompact params.powLimit
    let diffInterval := params.DifficultyAdjustmentIntervalAtHeight pindexLast.nHeight
    if (pindexLast.nHeight + 1) % diffInterval ≠ 0 then
      if params.fPowAllowMinDifficultyBlocks = true then
        if blockTime > pindexLast.GetBlockTime + params.nPowTargetSpacing * 2 then
          some nProofOfWorkLimit
        else
          some (minDiffWalk pindexLast rest diffInterval nProofOfWorkLimit)
      else some pindexLast.nBits
    else
      let nHeightFirst : Int := (pindexLast.nHeight : Int) - ((diffInterval : Int) - 1)
      if nHeightFirst < 0 then none
      else
        match getAncestor c nHeightFirst.toNat with
        | none => none
        | some pindexFirst =>
          some (CalculateNextWorkRequired pindexLast pindexFirst.GetBlockTime params)

/-- Reduction of a mathematical integer into the two's-complement range
of the 32-bit C++ `int` accumulator. -/
def wrap32 (x : Int) : Int := (x + 2 ^ 31) % 2 ^ 32 - 2 ^ 31

/-- The window loop of `LwmaCalculateNextWorkRequired` over the index
list `is`, carrying the position counter `j`, the `int` accumulator `t`
(reduced by `wrap32` at every store, as the C++ `int` is), and the
256-bit `sum_target`. `none` models a null `GetAncestor` result. The
source's `block->GetAncestor(i - 1)` resolves to the chain entry at
height `i - 1`, the same entry `getAncestor c (i - 1)` yields on a
structurally valid chain. -/
def lwmaLoopGo (c : Chain) (is : List Nat) (j : Nat) (t : Int) (sum : Nat) :
    Option (Int × Nat) :=
  match is with
  | [] => some (t, sum)
  | i :: is' =>
    match getAncestor c i, getAncestor c (i - 1) with
    | some block, some blockPrev =>
      let solvetime : Int := block.GetBlockTime - blockPrev.GetBlockTime
      let j' := j + 1
      lwmaLoopGo c is' j' (wrap32 (t + solvetime * j'))
        ((sum + setCompactValue block.nBits / (1377 * 45 * 45)) % 2 ^ 256)
    | _, _ => none

/-- The floor clamp applied to the weighted solvetime sum:
`if (t < N * k / 3) t = N * k / 3` with `N = 45`, `k = 1377`. -/
def lwmaClampT (t : Int) : Int :=
  if t < 45 * 1377 / 3 then 45 * 1377 / 3 else t

/-- The 256-bit value computed by `LwmaCalculateNextWorkRequired` just
before re-encoding: clamp `t`, multiply by `sum_target` (modulo
`2^256`), clamp to `powLimit`. -/
def lwmaNextTargetValue (powLimit : Nat) (t : Int) (sum : Nat) : Nat :=
  let t' := lwmaClampT t
  let next := (t'.toNat * sum) % 2 ^ 256
  if next > powLimit then powLimit else next

/-- `LwmaCalculateNextWorkRequired(pindexLast, params)` from
`src/pow.cpp`: `noRetargeting` short-circuit, the `height > N` assert
(`none` on failure), the window loop over
`i ∈ [height - 45, height - 1]`, the floor clamp on `t`, and the final
clamp and re-encode. -/
def LwmaCalculateNextWorkRequired (c : Chain) (params : ConsensusParams) : Option Nat :=
  match c with
  | [] => none
  | pindexLast :: _ =>
    if params.fPowNoRetargeting = true then some pindexLast.nBits
    else
      let height := pindexLast.nHeight + 1
      if height > 45 then
        match lwmaLoopGo c ((List.range 45).map (fun n => height - 45 + n)) 0 0 0 with
        | none => none
        | some (t, sum) => some (GetCompact (lwmaNextTargetValue params.powLimit t sum))
      else none

/-- `LwmaGetNextWorkRequired(pindexLast, pblock, params)` from
`src/pow.cpp`: the testnet minimum-difficulty escape, checked before
delegating to `LwmaCalculateNextWorkRequired`. -/
def LwmaGetNextWorkRequired (c : Chain) (blockTime : Int)
    (params : ConsensusParams) : Option Nat :=
  match c with
  | [] => none
  | pindexLast :: _ =>
    if params.fPowAllowMinDifficultyBlocks = true ∧
        blockTime > pindexLast.GetBlockTime + params.nPowTargetSpacing * 2 then
      some (GetCompact params.powLimit)
    else LwmaCalculateNextWorkRequired c params

/-- `GetNextWorkRequired(pindexLast, pblock, params)` from
`src/pow.cpp`: dispatch on the LWMA activation height. -/
def GetNextWorkRequired (c : Chain) (blockTime : Int)
    (params : ConsensusParams) : Option Nat :=
  match c with
  | [] => none
  | pindexLast :: _ =>
    if ((pindexLast.nHeight : Int) + 1) ≥ params.zawyLWMAHeight then
      LwmaGetNextWorkRequired c blockTime params
    else PreLWMAGetNextWorkRequired c blockTime params

/-- Spec-side definition for the refinement claim about the LWMA
accumulator, following the spec's words: for each window index, the
exact mathematical signed sum `t += solvetime * j` with no machine-width
reduction. -/
def specWeightedSumGo (c : Chain) (is : List Nat) (j : Nat) (t : Int) : Option Int :=
  match is with
  | [] => some t
  | i :: is' =>
    match getAncestor c i, getAncestor c (i - 1) with
    | some block, some blockPrev =>
      let solvetime : Int := block.GetBlockTime - blockPrev.GetBlockTime
      let j' := j + 1
      specWeightedSumGo c is' j' (t + solvetime * j')
    | _, _ => none

/-- Spec-side exact weighted solvetime sum over the LWMA window of a
chain whose next height is `height`. -/
def specWeightedSum (c : Chain) (height : Nat) : Option Int :=
  specWeightedSumGo c ((List.range 45).map (fun n => height - 45 + n)) 0 0

/-- Mainnet-style parameters used by concrete instances: Bitcoin
`powLimit`, 10-minute spacing, 2016-block interval, two-week timespan. -/
def mainnetParams : ConsensusParams :=
  ⟨0xffff * 2 ^ 208, 600, false, false, 100, fun _ => 2016, fun _ => 1209600⟩

/-- Testnet-style parameters: as `mainnetParams` but with the
minimum-difficulty escape enabled. -/
def testnetParams : ConsensusParams :=
  ⟨0xffff * 2 ^ 208, 600, true, false, 100, fun _ => 2016, fun _ => 1209600⟩

/-- Parameters with a maximal power-of-two target limit and a tiny
target timespan, used to exhibit 256-bit wrap-around in the classic
retarget product. -/
def tinyTimespanParams : ConsensusParams :=
  ⟨2 ^ 255, 600, false, false, 100, fun _ => 2016, fun _ => 4⟩

/-- Parameters with a small (3-byte) target limit and a 600-second
timespan, used for concrete classic-retarget computations. -/
def smallLimitParams : ConsensusParams :=
  ⟨0xffff, 600, false, false, 100, fun _ => 2016, fun _ => 600⟩

/-- A structurally valid 46-block chain (heights `45` down to `0`,
most recent first) with perfectly steady 600-second block times. -/
def steadyChain : Chain :=
  (List.range 46).reverse.map (fun h => ⟨h, 600 * h, 0⟩)

/-- A structurally valid 46-block chain whose timestamps alternate
between `0` and `2^32 - 1`, the extreme values a 32-bit `nTime` can
take. -/
def alternatingChain : Chain :=
  (List.range 46).reverse.map (fun h => ⟨h, if h % 2 = 1 then 2 ^ 32 - 1 else 0, 0⟩)

lemma wrap32_emod (x : Int) : wrap32 x % 2 ^ 32 = x % 2 ^ 32 := by
  unfold wrap32; omega

lemma wrap32_range (x : Int) : -2 ^ 31 ≤ wrap32 x ∧ wrap32 x < 2 ^ 31 := by
  unfold wrap32; omega

lemma wrap32_eq_of_range (x : Int) (h1 : -2 ^ 31 ≤ x) (h2 : x < 2 ^ 31) :
    wrap32 x = x := by
  unfold wrap32; omega

lemma wrap32_add_left (a x : Int) : wrap32 (wrap32 a + x) = wrap32 (a + x) := by
  unfold wrap32; omega

/-- The LWMA window loop computes, in its `int` accumulator, the
`wrap32` reduction of the exact weighted solvetime sum. -/
lemma lwmaLoopGo_wrap (c : Chain) (is : List Nat) :
    ∀ (j : Nat) (t0 : Int) (s0 : Nat) (u0 : Int) (t : Int) (s : Nat) (u : Int),
      lwmaLoopGo c is j t0 s0 = some (t, s) →
      specWeightedSumGo c is j u0 = some u →
      t0 = wrap32 u0 →
      t = wrap32 u := by
  induction is with
  | nil =>
    intro j t0 s0 u0 t s u hloop hspec h0
    simp only [lwmaLoopGo, Option.some.injEq, Prod.mk.injEq] at hloop
    simp only [specWeightedSumGo, Option.some.injEq] at hspec
    rcases hloop with ⟨ht, hs⟩
    subst hspec
    rw [← ht]
    exact h0
  | cons i is' ih =>
    intro j t0 s0 u0 t s u hloop hspec h0
    simp only [lwmaLoopGo] at hloop
    simp only [specWeightedSumGo] at hspec
    cases ha : getAncestor c i with
    | none => rw [ha] at hloop; exact absurd hloop (by simp)
    | some block =>
      cases hb : getAncestor c (i - 1) with
      | none => rw [ha, hb] at hloop; exact absurd hloop (by simp)
      | some blockPrev =>
        rw [ha, hb] at hloop hspec
        refine ih (j + 1) _ _ _ t s u hloop hspec ?_
        rw [h0, wrap32_add_left]

/-- The min-difficulty backward walk returns the bits of the first
block (scanning from the most recent) that fails the walk condition,
whenever such a block exists. -/
lemma minDiffWalk_find (I L : Nat) (rest : Chain) :
    ∀ b br : BlockIndex,
      List.find? (fun x => decide (x.nHeight % I = 0 ∨ x.nBits ≠ L)) (b :: rest) = some br →
      minDiffWalk b rest I L = br.nBits := by
  induction rest with
  | nil =>
    intro b br h
    by_cases hc : b.nHeight % I = 0 ∨ b.nBits ≠ L
    · simp only [List.find?, decide_eq_true hc] at h
      cases h
      rfl
    · simp only [List.find?, decide_eq_false hc] at h
      exact absurd h (by simp)
  | cons p r ih =>
    intro b br h
    by_cases hc : b.nHeight % I = 0 ∨ b.nBits ≠ L
    · simp only [List.find?, decide_eq_true hc] at h
      cases h
      have hc' : ¬(b.nHeight % I ≠ 0 ∧ b.nBits = L) := by tauto
      simp [minDiffWalk, hc']
    · simp only [List.find?, decide_eq_false hc] at h
      have hc' : b.nHeight % I ≠ 0 ∧ b.nBits = L := by tauto
      simp only [minDiffWalk, if_pos hc']
      exact ih p br h

/-- If every block of the chain satisfies the walk condition, the
min-difficulty backward walk runs to the earliest available block and
returns its bits. -/
lemma minDiffWalk_all (I L : Nat) (rest : Chain) :
    ∀ b : BlockIndex,
      (∀ x ∈ b :: rest, x.nHeight % I ≠ 0 ∧ x.nBits = L) →
      minDiffWalk b rest I L = ((b :: rest).getLast (List.cons_ne_nil b rest)).nBits := by
  induction rest with
  | nil => intro b _; rfl
  | cons p r ih =>
    intro b hall
    have hc : b.nHeight % I ≠ 0 ∧ b.nBits = L := hall b (by simp)
    simp only [minDiffWalk, if_pos hc]
    rw [ih p (fun x hx => hall x (by simp [hx]))]
    rw [List.getLast_cons (List.cons_ne_nil p r)]

/-- Claim C1: `CheckProofOfWork(hash, nBits, params)` returns `true` if
and only if decoding `nBits` reports neither the negative flag nor the
overflow flag, the decoded target is nonzero and at most `powLimit`,
and the hash, read as an unsigned 256-bit magnitude, is at most the
decoded target; in every other case it returns `false`.  The function
is a total Lean function, so it returns a value for every 32-bit
`nBits` pattern. -/
theorem checkProofOfWork_iff (hash nBits : Nat) (params : ConsensusParams) :
    CheckProofOfWork hash nBits params = true ↔
      (setCompactNegative nBits = false ∧ setCompactOverflow nBits = false ∧
       setCompactValue nBits ≠ 0 ∧ setCompactValue nBits ≤ params.powLimit ∧
       hash ≤ setCompactValue nBits) := by
  unfold CheckProofOfWork
  by_cases h1 : setCompactNegative nBits = true ∨ setCompactValue nBits = 0 ∨
      setCompactOverflow nBits = true ∨ setCompactValue nBits > params.powLimit
  · rw [if_pos h1]
    refine iff_of_false (by simp) ?_
    rintro ⟨hn, ho, hz, hl, hh⟩
    rcases h1 with h | h | h | h
    · rw [hn] at h; exact absurd h (by simp)
    · exact absurd h hz
    · rw [ho] at h; exact absurd h (by simp)
    · omega
  · rw [if_neg h1]
    push_neg at h1
    obtain ⟨hn, hz, ho, hl⟩ := h1
    by_cases h2 : hash > setCompactValue nBits
    · rw [if_pos h2]
      refine iff_of_false (by simp) ?_
      rintro ⟨-, -, -, -, hh⟩
      omega
    · rw [if_neg h2]
      exact iff_of_true rfl
        ⟨by simpa using hn, by simpa using ho, hz, by omega, by omega⟩

/-- Claim C5: the weighted solvetime sum actually multiplied into the
next LWMA target is `lwmaClampT t`, which is never below
`N*k/3 = 45*1377/3 = 20655`; whenever the accumulated sum `t` is below
the floor — in particular for a window of maximally negative
solvetimes — it is replaced by exactly `20655` before the
multiplication. -/
theorem lwmaClampT_floor (t : Int) :
    20655 ≤ lwmaClampT t ∧ (t < 20655 → lwmaClampT t = 20655) := by
  unfold lwmaClampT
  refine ⟨?_, fun h => ?_⟩ <;> split_ifs with hc <;> omega

/-- Witness for C5 at a strongly negative accumulated sum. -/
theorem lwmaClampT_floor_witness :
    20655 ≤ lwmaClampT (-1000000000) ∧ lwmaClampT (-1000000000) = 20655 :=
  ⟨(lwmaClampT_floor (-1000000000)).1, (lwmaClampT_floor (-1000000000)).2 (by decide)⟩

/-- Claim C9: whenever `noRetargeting` is set, both retarget
computations return `pindexLast->nBits` unchanged —
`CalculateNextWorkRequired` for any first-block timestamp, and
`LwmaCalculateNextWorkRequired` for any window contents. -/
theorem noRetargeting_fixed (pindexLast : BlockIndex) (rest : Chain)
    (nFirstBlockTime : Int) (params : ConsensusParams)
    (h : params.fPowNoRetargeting = true) :
    CalculateNextWorkRequired pindexLast nFirstBlockTime params = pindexLast.nBits ∧
    LwmaCalculateNextWorkRequired (pindexLast :: rest) params = some pindexLast.nBits := by
  constructor
  · unfold CalculateNextWorkRequired
    rw [if_pos h]
  · simp only [LwmaCalculateNextWorkRequired]
    rw [if_pos h]

/-- Witness for C9 on a concrete block and no-retargeting parameters. -/
theorem noRetargeting_fixed_witness :
    CalculateNextWorkRequired ⟨9, 500, 123⟩ 0
        ⟨0xffff * 2 ^ 208, 600, false, true, 100, fun _ => 2016, fun _ => 1209600⟩ = 123 ∧
    LwmaCalculateNextWorkRequired [⟨9, 500, 123⟩]
        ⟨0xffff * 2 ^ 208, 600, false, true, 100, fun _ => 2016, fun _ => 1209600⟩ = some 123 :=
  noRetargeting_fixed ⟨9, 500, 123⟩ [] 0
    ⟨0xffff * 2 ^ 208, 600, false, true, 100, fun _ => 2016, fun _ => 1209600⟩ rfl

/-- Claim C6: if `allowMinDifficultyBlocks` is set and the candidate
timestamp exceeds the last block's timestamp by more than
`2 * targetSpacing`, both paths return the compact encoding of
`powLimit` directly: the LWMA entry point unconditionally — for every
last block, before any weighted computation or `noRetargeting` check
(the parameters' `noRetargeting` flag is left arbitrary here) — and
the classic path at non-boundary heights. -/
theorem minDifficulty_escape (pindexLast : BlockIndex) (rest : Chain) (blockTime : Int)
    (params : ConsensusParams)
    (hmin : params.fPowAllowMinDifficultyBlocks = true)
    (hgap : blockTime > pindexLast.GetBlockTime + params.nPowTargetSpacing * 2) :
    LwmaGetNextWorkRequired (pindexLast :: rest) blockTime params =
      some (GetCompact params.powLimit) ∧
    ((pindexLast.nHeight + 1) %
        params.DifficultyAdjustmentIntervalAtHeight pindexLast.nHeight ≠ 0 →
      PreLWMAGetNextWorkRequired (pindexLast :: rest) blockTime params =
        some (GetCompact params.powLimit)) := by
  constructor
  · simp only [LwmaGetNextWorkRequired]
    rw [if_pos ⟨hmin, hgap⟩]
  · intro hnb
    simp only [PreLWMAGetNextWorkRequired]
    rw [if_pos hnb, if_pos hmin, if_pos hgap]

/-- Witness for C6: a 21-minute gap on a testnet-style chain, for both
the LWMA entry point and the classic non-boundary path. -/
theorem minDifficulty_escape_witness :
    LwmaGetNextWorkRequired [⟨5, 1000, 486604799⟩] 2261 testnetParams =
      some (GetCompact testnetParams.powLimit) ∧
    PreLWMAGetNextWorkRequired [⟨5, 1000, 486604799⟩] 2261 testnetParams =
      some (GetCompact testnetParams.powLimit) := by
  have h := minDifficulty_escape ⟨5, 1000, 486604799⟩ [] 2261 testnetParams rfl (by decide)
  exact ⟨h.1, h.2 (by decide)⟩

/-- Claim C7: in the classic non-boundary case with the gap escape not
triggered: with `allowMinDifficultyBlocks` unset the function returns
`lastBlock.bits` unchanged, for every chain; with it set, the function
walks backward while the current block's height is nonzero modulo the
interval and its bits equal the compact `powLimit`, returning the bits
of the first block (most recent first) that breaks this condition,
whenever such a block exists (the chain-start case with no breaking
block is claim C10). -/
theorem preLWMA_nonboundary_walk (pindexLast : BlockIndex) (rest : Chain)
    (blockTime : Int) (params : ConsensusParams) (br : BlockIndex)
    (hnb : (pindexLast.nHeight + 1) %
        params.DifficultyAdjustmentIntervalAtHeight pindexLast.nHeight ≠ 0)
    (hgap : ¬ blockTime > pindexLast.GetBlockTime + params.nPowTargetSpacing * 2) :
    (params.fPowAllowMinDifficultyBlocks = false →
      PreLWMAGetNextWorkRequired (pindexLast :: rest) blockTime params =
        some pindexLast.nBits) ∧
    (params.fPowAllowMinDifficultyBlocks = true →
      List.find?
        (fun x => decide
          (x.nHeight % params.DifficultyAdjustmentIntervalAtHeight pindexLast.nHeight = 0 ∨
           x.nBits ≠ GetCompact params.powLimit)) (pindexLast :: rest) = some br →
      PreLWMAGetNextWorkRequired (pindexLast :: rest) blockTime params =
        some br.nBits) := by
  constructor
  · intro hmin
    simp only [PreLWMAGetNextWorkRequired]
    rw [if_pos hnb, if_neg (by simp [hmin])]
  · intro hmin hfind
    simp only [PreLWMAGetNextWorkRequired]
    rw [if_pos hnb, if_pos hmin, if_neg hgap,
      minDiffWalk_find _ _ rest pindexLast br hfind]

/-- Witness for C7, exercising both branches: with the escape rule
enabled, a run of two min-difficulty blocks is skipped and the bits of
the first block below them are returned; with it disabled, the last
block's bits are returned unchanged even on a chain made entirely of
min-difficulty blocks. -/
theorem preLWMA_nonboundary_walk_witness :
    PreLWMAGetNextWorkRequired
      [⟨5, 1000, 486604799⟩, ⟨4, 400, 486604799⟩, ⟨3, 300, 77⟩, ⟨2, 200, 77⟩]
      1000 testnetParams = some 77 ∧
    PreLWMAGetNextWorkRequired
      [⟨5, 1000, 486604799⟩, ⟨4, 400, 486604799⟩]
      1000 mainnetParams = some 486604799 := by
  have h1 := (preLWMA_nonboundary_walk ⟨5, 1000, 486604799⟩
    [⟨4, 400, 486604799⟩, ⟨3, 300, 77⟩, ⟨2, 200, 77⟩] 1000 testnetParams
    ⟨3, 300, 77⟩ (by decide) (by decide)).2 rfl (by decide)
  have h2 := (preLWMA_nonboundary_walk ⟨5, 1000, 486604799⟩
    [⟨4, 400, 486604799⟩] 1000 mainnetParams
    ⟨5, 1000, 486604799⟩ (by decide) (by decide)).1 rfl
  exact ⟨h1, h2⟩

/-- Claim C10: the classic min-difficulty backward walk checks for a
previous block before dereferencing it (in this embedding it is a
structurally recursive, hence terminating, function on the ancestor
list); when every available ancestor satisfies the walk condition the
walk stops at the earliest block — the root, which has no previous
block — and returns that root's bits, even though the root itself may
still satisfy the condition. -/
theorem preLWMA_walk_stops_at_root (pindexLast : BlockIndex) (rest : Chain)
    (blockTime : Int) (params : ConsensusParams)
    (hnb : (pindexLast.nHeight + 1) %
        params.DifficultyAdjustmentIntervalAtHeight pindexLast.nHeight ≠ 0)
    (hmin : params.fPowAllowMinDifficultyBlocks = true)
    (hgap : ¬ blockTime > pindexLast.GetBlockTime + params.nPowTargetSpacing * 2)
    (hall : ∀ x ∈ pindexLast :: rest,
        x.nHeight % params.DifficultyAdjustmentIntervalAtHeight pindexLast.nHeight ≠ 0 ∧
        x.nBits = GetCompact params.powLimit) :
    PreLWMAGetNextWorkRequired (pindexLast :: rest) blockTime params =
      some (((pindexLast :: rest).getLast (List.cons_ne_nil pindexLast rest)).nBits) := by
  simp only [PreLWMAGetNextWorkRequired]
  rw [if_pos hnb, if_pos hmin, if_neg hgap,
    minDiffWalk_all _ _ rest pindexLast hall]

/-- Witness for C10: a pruned-view chain whose every block, including
the earliest one, satisfies the walk condition; the earliest block's
bits are returned. -/
theorem preLWMA_walk_stops_at_root_witness :
    PreLWMAGetNextWorkRequired
      [⟨7, 700, 486604799⟩, ⟨6, 600, 486604799⟩, ⟨5, 500, 486604799⟩]
      700 testnetParams = some 486604799 := by
  have h := preLWMA_walk_stops_at_root ⟨7, 700, 486604799⟩
    [⟨6, 600, 486604799⟩, ⟨5, 500, 486604799⟩] 700 testnetParams
    (by decide) rfl (by decide) (by decide)
  simpa using h

lemma clampTimespan_self (T : Int) (h : 0 < T) : clampTimespan T T = T := by
  simp only [clampTimespan]
  rw [Int.tdiv_eq_ediv (by omega) (by omega)]
  split_ifs <;> omega

/-- Counterexample to claim C2 as stated: with `lastBlock.bits = 0` the
decoded input target is zero, and the classic retarget computation
(with `noRetargeting` unset and the timespan exactly on target) returns
`GetCompact 0 = 0` — the compact encoding of a zero target.  The code
clamps the output only from above, never away from zero. -/
theorem retarget_zero_output_cex :
    CalculateNextWorkRequired ⟨100, 600, 0⟩ 0 smallLimitParams = GetCompact 0 ∧
    setCompactValue (GetCompact 0) = 0 := by
  exact ⟨by decide, by decide⟩

/-- Claim C2 (amended): every retarget output value, in both paths, is
clamped from above to `powLimit` before being re-encoded (and the
classic function indeed returns the re-encoding of that clamped value
when the retarget computation is performed); there is however no lower
clamp, so a zero value — hence a zero-target encoding — is possible. -/
theorem retarget_value_le_powLimit (b : BlockIndex) (t0 : Int) (params : ConsensusParams)
    (L : Nat) (t : Int) (s : Nat)
    (hNR : params.fPowNoRetargeting = false) :
    CalculateNextWorkRequired_bnNew b t0 params ≤ params.powLimit ∧
    CalculateNextWorkRequired b t0 params =
      GetCompact (CalculateNextWorkRequired_bnNew b t0 params) ∧
    lwmaNextTargetValue L t s ≤ L := by
  refine ⟨?_, ?_, ?_⟩
  · simp only [CalculateNextWorkRequired_bnNew]
    split_ifs with h <;> omega
  · unfold CalculateNextWorkRequired
    rw [if_neg (by simp [hNR])]
  · simp only [lwmaNextTargetValue]
    split_ifs with h <;> omega

/-- Witness for C2 (amended) on a steady mainnet-style retarget. -/
theorem retarget_value_le_powLimit_witness :
    CalculateNextWorkRequired_bnNew ⟨2015, 1209600, 486604799⟩ 0 mainnetParams ≤
      mainnetParams.powLimit ∧
    CalculateNextWorkRequired ⟨2015, 1209600, 486604799⟩ 0 mainnetParams =
      GetCompact (CalculateNextWorkRequired_bnNew ⟨2015, 1209600, 486604799⟩ 0 mainnetParams) ∧
    lwmaNextTargetValue 99 5 7 ≤ 99 :=
  retarget_value_le_powLimit ⟨2015, 1209600, 486604799⟩ 0 mainnetParams 99 5 7 rfl

/-- Counterexample to claim C3 as stated: with `lastBlock.bits`
decoding to `2^255` (compact `0x21008000`, which carries no overflow
flag) and a clamped timespan of `4 = targetTimespan`, the 256-bit
product wraps (`2^255 * 4 ≡ 0 (mod 2^256)`) and the code returns `0`,
whereas the claimed overflow-free formula
`decode(bits) * clampedTimespan / targetTimespan`, clamped to
`powLimit = 2^255` and re-encoded, yields `0x21008000 ≠ 0`. -/
theorem classic_retarget_overflow_cex :
    CalculateNextWorkRequired ⟨100, 4, 0x21008000⟩ 0 tinyTimespanParams = 0 ∧
    setCompactValue 0x21008000 *
        (clampTimespan ((⟨100, 4, 0x21008000⟩ : BlockIndex).GetBlockTime - 0)
          (tinyTimespanParams.getPowTargetTimespan 100)).toNat /
        (tinyTimespanParams.getPowTargetTimespan 100).toNat = 2 ^ 255 ∧
    2 ^ 255 ≤ tinyTimespanParams.powLimit ∧
    GetCompact (2 ^ 255) = 0x21008000 ∧
    (0 : Nat) ≠ 0x21008000 := by
  exact ⟨by decide, by decide, by decide, by decide, by decide⟩

/-- Claim C3 (amended): in the classic boundary retarget with
`noRetargeting` unset, the actual timespan is clamped into
`[targetTimespan/4, targetTimespan*4]` (C++ truncating division), and
— provided the 256-bit product `decode(bits) * clampedTimespan` does
not wrap modulo `2^256` — the returned value is exactly
`decode(lastBlock.bits) * clampedTimespan / targetTimespan`, computed
multiplication-first, clamped to `powLimit`, and re-encoded. -/
theorem classic_retarget_formula (b : BlockIndex) (t0 : Int) (params : ConsensusParams)
    (hNR : params.fPowNoRetargeting = false)
    (hnow : setCompactValue b.nBits *
        (clampTimespan (b.GetBlockTime - t0)
          (params.getPowTargetTimespan b.nHeight)).toNat < 2 ^ 256) :
    CalculateNextWorkRequired b t0 params =
      GetCompact
        (if setCompactValue b.nBits *
              (clampTimespan (b.GetBlockTime - t0)
                (params.getPowTargetTimespan b.nHeight)).toNat /
              (params.getPowTargetTimespan b.nHeight).toNat > params.powLimit
         then params.powLimit
         else setCompactValue b.nBits *
              (clampTimespan (b.GetBlockTime - t0)
                (params.getPowTargetTimespan b.nHeight)).toNat /
              (params.getPowTargetTimespan b.nHeight).toNat) := by
  unfold CalculateNextWorkRequired
  rw [if_neg (by simp [hNR])]
  simp only [CalculateNextWorkRequired_bnNew]
  rw [Nat.mod_eq_of_lt hnow]

/-- Witness for C3 (amended): a mainnet-style boundary retarget whose
timespan `100` is clamped up to `targetTimespan/4 = 302400`, giving one
quarter of the previous target. -/
theorem classic_retarget_formula_witness :
    setCompactValue 486604799 *
        (clampTimespan ((⟨2015, 100, 486604799⟩ : BlockIndex).GetBlockTime - 0)
          (mainnetParams.getPowTargetTimespan 2015)).toNat < 2 ^ 256 ∧
    CalculateNextWorkRequired ⟨2015, 100, 486604799⟩ 0 mainnetParams = 473956288 := by
  have h := classic_retarget_formula ⟨2015, 100, 486604799⟩ 0 mainnetParams rfl (by decide)
  exact ⟨by decide, by rw [h]; decide⟩


lemma bitLenAux_zero (f : Nat) : bitLenAux f 0 = 0 := by cases f <;> rfl

lemma bitLenAux_bounds : ∀ f x, 0 < x → x < 2 ^ f →
    2 ^ (bitLenAux f x - 1) ≤ x ∧ x < 2 ^ bitLenAux f x := by
  intro f
  induction f with
  | zero => intro x hx hf; omega
  | succ f ih =>
    intro x hx hf
    simp only [bitLenAux]
    rw [if_neg (by omega)]
    by_cases h1 : x = 1
    · subst h1
      norm_num [bitLenAux_zero]
    · have hx2 : 0 < x / 2 := by omega
      have hf2 : x / 2 < 2 ^ f := by
        have h2 : 2 ^ (f + 1) = 2 * 2 ^ f := by rw [pow_succ]; ring
        omega
      obtain ⟨hlo, hhi⟩ := ih (x / 2) hx2 hf2
      set L := bitLenAux f (x / 2) with hL
      have hL1 : 1 ≤ L := by
        rcases Nat.eq_zero_or_pos L with h0 | h0
        · rw [h0] at hhi; norm_num at hhi; omega
        · exact h0
      have e1 : 2 ^ L = 2 * 2 ^ (L - 1) := by
        conv_lhs => rw [show L = (L - 1) + 1 by omega]
        rw [pow_succ]; ring
      have e2 : 2 ^ (L + 1) = 2 * 2 ^ L := by rw [pow_succ]; ring
      rw [Nat.add_sub_cancel]
      omega

lemma bitLen_unique (x a : Nat) (hx0 : 0 < x) (hx : x < 2 ^ 300)
    (ha : 1 ≤ a) (h1 : 2 ^ (a - 1) ≤ x) (h2 : x < 2 ^ a) : bitLen x = a := by
  unfold bitLen
  obtain ⟨hlo, hhi⟩ := bitLenAux_bounds 300 x hx0 hx
  set B := bitLenAux 300 x with hB
  rcases Nat.lt_trichotomy B a with h | h | h
  · exfalso
    have hle : (2 : Nat) ^ B ≤ 2 ^ (a - 1) :=
      Nat.pow_le_pow_right (by norm_num) (by omega)
    omega
  · exact h
  · exfalso
    have hB1 : 1 ≤ B := by
      rcases Nat.eq_zero_or_pos B with h0 | h0
      · rw [h0] at hhi; norm_num at hhi; omega
      · exact h0
    have hle : (2 : Nat) ^ a ≤ 2 ^ (B - 1) :=
      Nat.pow_le_pow_right (by norm_num) (by omega)
    omega

lemma bitLen_pos_bounds (x : Nat) (hx0 : 0 < x) (hx : x < 2 ^ 300) :
    2 ^ (bitLen x - 1) ≤ x ∧ x < 2 ^ bitLen x ∧ 1 ≤ bitLen x := by
  obtain ⟨hlo, hhi⟩ := bitLenAux_bounds 300 x hx0 hx
  refine ⟨hlo, hhi, ?_⟩
  rcases Nat.eq_zero_or_pos (bitLenAux 300 x) with h0 | h0
  · unfold bitLen; rw [h0] at hhi; norm_num at hhi; omega
  · exact h0

lemma bitLen_mul_pow2 (m k : Nat) (hm : 0 < m) (h : m * 2 ^ k < 2 ^ 300) :
    bitLen (m * 2 ^ k) = bitLen m + k := by
  have hk1 : (0 : Nat) < 2 ^ k := Nat.pos_pow_of_pos k (by norm_num)
  have hm300 : m < 2 ^ 300 := by
    have hle : m ≤ m * 2 ^ k := Nat.le_mul_of_pos_right m hk1
    omega
  obtain ⟨hlo, hhi, hL1⟩ := bitLen_pos_bounds m hm hm300
  apply bitLen_unique
  · exact Nat.mul_pos hm hk1
  · exact h
  · omega
  · rw [show bitLen m + k - 1 = (bitLen m - 1) + k by omega, pow_add]
    exact Nat.mul_le_mul_right _ hlo
  · rw [pow_add]
    exact (Nat.mul_lt_mul_right hk1).mpr hhi

lemma mul_pow_div (m a b : Nat) (h : b ≤ a) : m * 2 ^ a / 2 ^ b = m * 2 ^ (a - b) := by
  conv_lhs => rw [show a = (a - b) + b by omega, pow_add, ← mul_assoc]
  exact Nat.mul_div_cancel _ (Nat.pos_pow_of_pos b (by norm_num))

lemma setCompactValue_getCompact (m e : Nat) (hm : m < 2 ^ 23) (hv : m * 2 ^ (8 * e) < 2 ^ 256) :
    setCompactValue (GetCompact (m * 2 ^ (8 * e))) = m * 2 ^ (8 * e) := by
  rcases Nat.eq_zero_or_pos m with hm0 | hm0
  · subst hm0
    norm_num
    decide
  · have hpow : ∀ a b : Nat, a ≤ b → (2 : Nat) ^ a ≤ 2 ^ b :=
      fun a b hab => Nat.pow_le_pow_right (by norm_num) hab
    have h300 : m * 2 ^ (8 * e) < 2 ^ 300 := by
      have := hpow 256 300 (by norm_num)
      omega
    obtain ⟨hmlo, hmhi, hL1⟩ := bitLen_pos_bounds m hm0
      (by have := hpow 23 300 (by norm_num); omega)
    set L := bitLen m with hLdef
    have hL23 : L ≤ 23 := by
      by_contra hc
      push_neg at hc
      have := hpow 23 (L - 1) (by omega)
      omega
    set s := (L + 7) / 8 with hsdef
    have hs1 : 1 ≤ s := by omega
    have hs3 : s ≤ 3 := by omega
    have hbitv : bitLen (m * 2 ^ (8 * e)) = L + 8 * e := bitLen_mul_pow2 m (8 * e) hm0 h300
    have hm8s : m < 2 ^ (8 * s) := lt_of_lt_of_le hmhi (hpow L (8 * s) (by omega))
    have hMlt : m * 2 ^ (8 * (3 - s)) < 2 ^ 24 := by
      have h1 : m * 2 ^ (8 * (3 - s)) < 2 ^ (8 * s) * 2 ^ (8 * (3 - s)) :=
        (Nat.mul_lt_mul_right (Nat.pos_pow_of_pos _ (by norm_num))).mpr hm8s
      have h2 : (2 : Nat) ^ (8 * s) * 2 ^ (8 * (3 - s)) = 2 ^ 24 := by
        rw [← pow_add]; congr 1; omega
      omega
    have hnc : GetCompact (m * 2 ^ (8 * e)) =
        (if (m * 2 ^ (8 * (3 - s)) / 2 ^ 23) % 2 = 1
         then m * 2 ^ (8 * (3 - s)) / 2 ^ 8 + (s + e + 1) * 2 ^ 24
         else m * 2 ^ (8 * (3 - s)) + (s + e) * 2 ^ 24) := by
      simp only [GetCompact]
      rw [hbitv, show (L + 8 * e + 7) / 8 = s + e by omega]
      have hcompact : (if s + e ≤ 3 then (m * 2 ^ (8 * e) % 2 ^ 64) * 2 ^ (8 * (3 - (s + e)))
          else m * 2 ^ (8 * e) / 2 ^ (8 * (s + e - 3)) % 2 ^ 64) = m * 2 ^ (8 * (3 - s)) := by
        split_ifs with hc
        · have hv24 : m * 2 ^ (8 * e) < 2 ^ 24 := by
            have h1 : m * 2 ^ (8 * e) < 2 ^ L * 2 ^ (8 * e) :=
              (Nat.mul_lt_mul_right (Nat.pos_pow_of_pos _ (by norm_num))).mpr hmhi
            have h2 : (2 : Nat) ^ L * 2 ^ (8 * e) = 2 ^ (L + 8 * e) := by rw [← pow_add]
            have h3 := hpow (L + 8 * e) 24 (by omega)
            omega
          rw [Nat.mod_eq_of_lt (by omega), mul_assoc, ← pow_add]
          congr 2
          omega
        · push_neg at hc
          rw [mul_pow_div m (8 * e) (8 * (s + e - 3)) (by omega),
            show 8 * e - 8 * (s + e - 3) = 8 * (3 - s) by omega]
          exact Nat.mod_eq_of_lt (by omega)
      rw [hcompact]
    rw [hnc]
    by_cases hbit : (m * 2 ^ (8 * (3 - s)) / 2 ^ 23) % 2 = 1
    · rw [if_pos hbit]
      have hMge : 2 ^ 23 ≤ m * 2 ^ (8 * (3 - s)) := by omega
      have hs2 : s ≤ 2 := by
        by_contra hc
        push_neg at hc
        have hs3' : s = 3 := by omega
        rw [hs3'] at hMge
        norm_num at hMge
        omega
      rw [mul_pow_div m (8 * (3 - s)) 8 (by omega),
        show 8 * (3 - s) - 8 = 8 * (2 - s) by omega]
      have hM' : m * 2 ^ (8 * (2 - s)) < 2 ^ 16 := by
        have h1 : m * 2 ^ (8 * (2 - s)) < 2 ^ (8 * s) * 2 ^ (8 * (2 - s)) :=
          (Nat.mul_lt_mul_right (Nat.pos_pow_of_pos _ (by norm_num))).mpr hm8s
        have h2 : (2 : Nat) ^ (8 * s) * 2 ^ (8 * (2 - s)) = 2 ^ 16 := by
          rw [← pow_add]; congr 1; omega
        omega
      simp only [setCompactValue]
      rw [show (m * 2 ^ (8 * (2 - s)) + (s + e + 1) * 2 ^ 24) / 2 ^ 24 = s + e + 1 by omega,
        show (m * 2 ^ (8 * (2 - s)) + (s + e + 1) * 2 ^ 24) % 2 ^ 23 = m * 2 ^ (8 * (2 - s)) by omega]
      split_ifs with hc
      · rw [mul_pow_div m (8 * (2 - s)) (8 * (3 - (s + e + 1))) (by omega),
          show 8 * (2 - s) - 8 * (3 - (s + e + 1)) = 8 * e by omega]
      · push_neg at hc
        rw [mul_assoc, ← pow_add, show 8 * (2 - s) + 8 * (s + e + 1 - 3) = 8 * e by omega]
        exact Nat.mod_eq_of_lt hv
    · rw [if_neg hbit]
      have hMlt23 : m * 2 ^ (8 * (3 - s)) < 2 ^ 23 := by omega
      simp only [setCompactValue]
      rw [show (m * 2 ^ (8 * (3 - s)) + (s + e) * 2 ^ 24) / 2 ^ 24 = s + e by omega,
        show (m * 2 ^ (8 * (3 - s)) + (s + e) * 2 ^ 24) % 2 ^ 23 = m * 2 ^ (8 * (3 - s)) by omega]
      split_ifs with hc
      · rw [mul_pow_div m (8 * (3 - s)) (8 * (3 - (s + e))) (by omega),
          show 8 * (3 - s) - 8 * (3 - (s + e)) = 8 * e by omega]
      · push_neg at hc
        rw [mul_assoc, ← pow_add, show 8 * (3 - s) + 8 * (s + e - 3) = 8 * e by omega]
        exact Nat.mod_eq_of_lt hv

/-- Decoding, re-encoding and decoding again is the identity on decoded
values: every decoded target re-encodes losslessly (its mantissa has at
most 23 significant bits). -/
lemma setCompact_roundtrip (nBits : Nat) :
    setCompactValue (GetCompact (setCompactValue nBits)) = setCompactValue nBits := by
  have hval : setCompactValue nBits =
      if nBits / 2 ^ 24 ≤ 3 then nBits % 2 ^ 23 / 2 ^ (8 * (3 - nBits / 2 ^ 24))
      else nBits % 2 ^ 23 * 2 ^ (8 * (nBits / 2 ^ 24 - 3)) % 2 ^ 256 := rfl
  set nSize := nBits / 2 ^ 24 with hns
  set nWord := nBits % 2 ^ 23 with hnw
  have hw : nWord < 2 ^ 23 := by omega
  by_cases hc : nSize ≤ 3
  · rw [hval, if_pos hc]
    have h1 : nWord / 2 ^ (8 * (3 - nSize)) < 2 ^ 23 := by
      have h2 : nWord / 2 ^ (8 * (3 - nSize)) ≤ nWord := Nat.div_le_self _ _
      omega
    have h3 := setCompactValue_getCompact (nWord / 2 ^ (8 * (3 - nSize))) 0 h1
      (by norm_num; omega)
    simpa using h3
  · rw [hval, if_neg hc]
    push_neg at hc
    by_cases h32 : nSize ≤ 32
    · have hnw256 : nWord * 2 ^ (8 * (nSize - 3)) < 2 ^ 256 := by
        have h1 : nWord * 2 ^ (8 * (nSize - 3)) < 2 ^ 23 * 2 ^ (8 * (nSize - 3)) :=
          (Nat.mul_lt_mul_right (Nat.pos_pow_of_pos _ (by norm_num))).mpr hw
        have h2 : (2 : Nat) ^ 23 * 2 ^ (8 * (nSize - 3)) ≤ 2 ^ 255 := by
          rw [← pow_add]
          exact Nat.pow_le_pow_right (by norm_num) (by omega)
        have h3 : (2 : Nat) ^ 255 < 2 ^ 256 := by norm_num
        omega
      rw [Nat.mod_eq_of_lt hnw256]
      exact setCompactValue_getCompact nWord (nSize - 3) hw hnw256
    · push_neg at h32
      by_cases h33 : nSize = 33
      · rw [h33, show 8 * (33 - 3) = 8 * 30 by norm_num]
        have hsplit : nWord * 2 ^ (8 * 30) % 2 ^ 256 = nWord % 2 ^ 16 * 2 ^ (8 * 30) := by
          conv_lhs => rw [show (2 : Nat) ^ 256 = 2 ^ 16 * 2 ^ (8 * 30) by rw [← pow_add]]
          exact Nat.mul_mod_mul_right _ _ _
        rw [hsplit]
        exact setCompactValue_getCompact (nWord % 2 ^ 16) 30 (by omega)
          (by have h5 : nWord % 2 ^ 16 < 2 ^ 16 := by omega
              have h6 : nWord % 2 ^ 16 * 2 ^ (8 * 30) < 2 ^ 16 * 2 ^ (8 * 30) :=
                (Nat.mul_lt_mul_right (Nat.pos_pow_of_pos _ (by norm_num))).mpr h5
              have h7 : (2 : Nat) ^ 16 * 2 ^ (8 * 30) = 2 ^ 256 := by rw [← pow_add]
              omega)
      · by_cases h34 : nSize = 34
        · rw [h34, show 8 * (34 - 3) = 8 * 31 by norm_num]
          have hsplit : nWord * 2 ^ (8 * 31) % 2 ^ 256 = nWord % 2 ^ 8 * 2 ^ (8 * 31) := by
            conv_lhs => rw [show (2 : Nat) ^ 256 = 2 ^ 8 * 2 ^ (8 * 31) by rw [← pow_add]]
            exact Nat.mul_mod_mul_right _ _ _
          rw [hsplit]
          exact setCompactValue_getCompact (nWord % 2 ^ 8) 31 (by omega)
            (by have h5 : nWord % 2 ^ 8 < 2 ^ 8 := by omega
                have h6 : nWord % 2 ^ 8 * 2 ^ (8 * 31) < 2 ^ 8 * 2 ^ (8 * 31) :=
                  (Nat.mul_lt_mul_right (Nat.pos_pow_of_pos _ (by norm_num))).mpr h5
                have h7 : (2 : Nat) ^ 8 * 2 ^ (8 * 31) = 2 ^ 256 := by rw [← pow_add]
                omega)
        · have h35 : 35 ≤ nSize := by omega
          have hzero : nWord * 2 ^ (8 * (nSize - 3)) % 2 ^ 256 = 0 := by
            rw [show 8 * (nSize - 3) = 256 + (8 * (nSize - 3) - 256) by omega, pow_add,
              mul_comm ((2 : Nat) ^ 256) _, ← mul_assoc, Nat.mul_mod_left]
          rw [hzero]
          decide

/-- Counterexample to claim C8 as stated: a last block whose bits
decode to `131070`, above `powLimit = 65535`, with the actual timespan
exactly equal to the target timespan; the classic retarget clamps to
`powLimit` and returns `0x0300ffff`, which encodes a different target
than `lastBlock.bits = 0x0301fffe`. -/
theorem classic_steady_state_cex :
    ((⟨100, 600, 0x0301fffe⟩ : BlockIndex).GetBlockTime - 0 =
      smallLimitParams.getPowTargetTimespan 100) ∧
    CalculateNextWorkRequired ⟨100, 600, 0x0301fffe⟩ 0 smallLimitParams = 0x0300ffff ∧
    setCompactValue 0x0300ffff ≠ setCompactValue 0x0301fffe := by
  exact ⟨by decide, by decide, by decide⟩

/-- Claim C8 (amended): the steady-state fixed point of the classic
retarget holds for every last block whose decoded target is within
`powLimit` and whose product with the (positive) target timespan fits
in 256 bits: if the actual timespan equals `targetTimespan` exactly and
`noRetargeting` is unset, the function returns the re-encoding of the
decoded input target — compact bits that decode to the same target as
`lastBlock.bits`. -/
theorem classic_retarget_steady_state (b : BlockIndex) (t0 : Int) (params : ConsensusParams)
    (hNR : params.fPowNoRetargeting = false)
    (hT : 0 < params.getPowTargetTimespan b.nHeight)
    (hts : b.GetBlockTime - t0 = params.getPowTargetTimespan b.nHeight)
    (hle : setCompactValue b.nBits ≤ params.powLimit)
    (hnow : setCompactValue b.nBits *
        (params.getPowTargetTimespan b.nHeight).toNat < 2 ^ 256) :
    CalculateNextWorkRequired b t0 params = GetCompact (setCompactValue b.nBits) ∧
    setCompactValue (CalculateNextWorkRequired b t0 params) = setCompactValue b.nBits := by
  have h1 : CalculateNextWorkRequired b t0 params = GetCompact (setCompactValue b.nBits) := by
    unfold CalculateNextWorkRequired
    rw [if_neg (by simp [hNR])]
    congr 1
    simp only [CalculateNextWorkRequired_bnNew]
    rw [hts, clampTimespan_self _ hT, Nat.mod_eq_of_lt hnow,
      Nat.mul_div_cancel _ (by omega : 0 < (params.getPowTargetTimespan b.nHeight).toNat)]
    rw [if_neg (by omega)]
  exact ⟨h1, by rw [h1]; exact setCompact_roundtrip b.nBits⟩

/-- Witness for C8 (amended): a steady two-week mainnet-style interval
returns exactly the same compact bits, which decode to the same
target. -/
theorem classic_retarget_steady_state_witness :
    CalculateNextWorkRequired ⟨2015, 1209600, 486604799⟩ 0 mainnetParams =
      GetCompact (setCompactValue 486604799) ∧
    setCompactValue (CalculateNextWorkRequired ⟨2015, 1209600, 486604799⟩ 0 mainnetParams) =
      setCompactValue 486604799 ∧
    GetCompact (setCompactValue 486604799) = 486604799 := by
  have h := classic_retarget_steady_state ⟨2015, 1209600, 486604799⟩ 0 mainnetParams
    rfl (by decide) (by decide) (by decide) (by decide)
  exact ⟨h.1, h.2, by decide⟩

/-- Counterexample to claim C4 as stated: on a structurally valid
46-block chain whose 32-bit timestamps alternate between `0` and
`2^32 - 1`, the exact weighted solvetime sum is `(2^32 - 1) * 23 =
98784247785`, but the C++ `int` accumulator of the window loop holds
`-23` after the loop — the sum does not fit in 32 bits. -/
theorem lwma_accumulator_cex :
    lwmaLoopGo alternatingChain ((List.range 45).map (fun n => 46 - 45 + n)) 0 0 0 =
      some (-23, 0) ∧
    specWeightedSum alternatingChain 46 = some 98784247785 ∧
    ((-23 : Int) ≠ 98784247785) := by
  exact ⟨by decide, by decide, by decide⟩

/-- Claim C4 (amended): after the LWMA window loop the `int`
accumulator `t` equals the `wrap32` (32-bit two's-complement) reduction
of the exact mathematical weighted solvetime sum; in particular it
equals that exact sum whenever the sum lies in `[-2^31, 2^31)`. -/
theorem lwma_accumulator_exact (c : Chain) (height : Nat) (t : Int) (s : Nat) (u : Int)
    (hloop : lwmaLoopGo c ((List.range 45).map (fun n => height - 45 + n)) 0 0 0 =
      some (t, s))
    (hspec : specWeightedSum c height = some u) :
    t = wrap32 u ∧ (-2 ^ 31 ≤ u → u < 2 ^ 31 → t = u) := by
  have hw : t = wrap32 u :=
    lwmaLoopGo_wrap c _ 0 0 0 0 t s u hloop hspec (by decide)
  exact ⟨hw, fun h1 h2 => by rw [hw, wrap32_eq_of_range u h1 h2]⟩

/-- Witness for C4 (amended): a steady 600-second window, where the
exact sum `621000` fits in 32 bits and the accumulator matches it. -/
theorem lwma_accumulator_exact_witness :
    lwmaLoopGo steadyChain ((List.range 45).map (fun n => 46 - 45 + n)) 0 0 0 =
      some (621000, 0) ∧
    specWeightedSum steadyChain 46 = some 621000 ∧
    (621000 : Int) = 621000 := by
  refine ⟨by decide, by decide, ?_⟩
  exact (lwma_accumulator_exact steadyChain 46 621000 0 621000
    (by decide) (by decide)).2 (by decide) (by decide)
